import Mathlib

/-!
Verification development for the AttenCalc gamma-ray attenuation calculator
(src/CalcAtten.hh, src/CalcAtten.cc).

Numbers held in C++ `double` variables are modelled as rationals for every
value that flows through parsing, lookup and comparison, and as reals where
the exponential attenuation law is applied.  C++ `std::stof` is modelled as
an abstract parsing function `Stof` (returning `none` where the C++ call
would throw), and the file system as an abstract map `FileSys` from paths to
file lines (`none` where `ifstream::open` would fail).  An out-of-bounds
vector read — undefined behaviour in C++ — is modelled by `readAt` returning
`none`, which the surrounding functions propagate as the error
`Err.outOfBounds`.
-/

namespace AttenCalc

/-- Fatal conditions of the program: each corresponds to an
`exit(EXIT_FAILURE)` site, an uncaught `std::stof` exception, or an
out-of-bounds vector access (undefined behaviour) in the C++ source. -/
inductive Err where
  | scriptFormat   -- "Error: Unexpected macro format" (CalcAtten.cc line 55)
  | dataFormat    -- "Error: Unexpected data file format" (CalcAtten.hh lines 74, 119)
  | noDensity     -- "Error: No density found in data file" (CalcAtten.hh line 89)
  | fileNotOpen   -- "Error: File not open" (CalcAtten.hh lines 91, 139)
  | stofFail      -- uncaught exception from std::stof
  | outOfBounds   -- out-of-bounds std::vector read in Closest / MassAttenCoeff
  deriving DecidableEq, Repr

/-- The file system: maps a path to the list of lines `getline` would
produce, or `none` when the file cannot be opened. -/
def FileSys : Type := List Char → Option (List (List Char))

/-- Model of C++ `std::stof`: parses a leading decimal number from a string,
`none` when the C++ call would throw. -/
def Stof : Type := List Char → Option ℚ

/-- `line.find(" ")` on a `std::string`, as an optional index. -/
def findSpace (s : List Char) : Option ℕ := s.findIdx? (fun c => c = ' ')

/-- `s.find(" ", k)`: first space at index ≥ k, as an absolute index. -/
def findSpaceFrom (s : List Char) (k : ℕ) : Option ℕ :=
  match findSpace (s.drop k) with
  | none => none
  | some j => some (k + j)

/-- `cmdArg.find(",")`. -/
def findComma (s : List Char) : Option ℕ := s.findIdx? (fun c => c = ',')

/-! ## Nearest-energy lookup (CalcAtten.hh, `Closest`, lines 32–45) -/

/-- Index returned by `std::lower_bound` on an ascending range: the
partition point of the predicate `x < val`. -/
def lowerBoundIdx (vec : List ℚ) (val : ℚ) : ℕ :=
  (vec.takeWhile (fun x => x < val)).length

/-- Index returned by `std::upper_bound` on an ascending range: the
partition point of the predicate `x ≤ val`. -/
def upperBoundIdx (vec : List ℚ) (val : ℚ) : ℕ :=
  (vec.takeWhile (fun x => x ≤ val)).length

/-- Dereference of a vector iterator at (possibly negative) offset `i`:
`none` models the undefined behaviour of an out-of-bounds read. -/
def readAt (vec : List ℚ) (i : ℤ) : Option ℚ :=
  if h : 0 ≤ i ∧ i.toNat < vec.length then some (vec.get ⟨i.toNat, h.2⟩) else none

/-- C's `fabs` on the modelled doubles. -/
def fabs (q : ℚ) : ℚ := if q < 0 then -q else q

/-- `Closest` (CalcAtten.hh lines 32–45): `lb = lower_bound(...) - 1`,
`ub = upper_bound(...)`; both are dereferenced (also by the diagnostic
print on line 43), and the index with the smaller absolute difference is
returned, `ub` on ties.  `none` models an out-of-bounds dereference. -/
def Closest (vec : List ℚ) (val : ℚ) : Option ℕ :=
  match readAt vec ((lowerBoundIdx vec val : ℤ) - 1),
        readAt vec (upperBoundIdx vec val : ℤ) with
  | some lv, some uv =>
    some (if fabs (uv - val) > fabs (lv - val)
          then ((lowerBoundIdx vec val : ℤ) - 1).toNat
          else upperBoundIdx vec val)
  | _, _ => none

/-! ## Property table loading (CalcAtten.hh, `Density` and `MassAttenCoeff`) -/

/-- `DataFilePath` (CalcAtten.hh lines 47–50). -/
def DataFilePath (absorber : List Char) : List Char :=
  "Data/".toList ++ absorber ++ "Data.txt".toList

def densityLabel : List Char := "Density(g/cm^3):".toList

def macLabel : List Char := "MAC(MeV,cm^2/g,cm^2/g):".toList

def gammaLabel : List Char := "Gamma(keV):".toList

def shieldLabel : List Char := "Shield(type,cm):".toList

/-- The line-scanning loop of `Density` (CalcAtten.hh lines 70–89): stops at
the first `Density(g/cm^3):` line and parses its argument; a line without a
space is a fatal format error; end of file without a density is fatal. -/
def densityScan (stof : Stof) : List (List Char) → Except Err ℚ
  | [] => .error .noDensity
  | line :: rest =>
    match findSpace line with
    | none => .error .dataFormat
    | some n =>
      if line.take n = densityLabel then
        match stof (line.drop (n + 1)) with
        | none => .error .stofFail
        | some d => .ok d
      else densityScan stof rest

/-- `Density` (CalcAtten.hh lines 52–92). -/
def Density (fs : FileSys) (stof : Stof) (absorber : List Char) : Except Err ℚ :=
  match fs (DataFilePath absorber) with
  | none => .error .fileNotOpen
  | some lines => densityScan stof lines

/-- Field extraction from one `MAC(...)` line argument (CalcAtten.hh lines
127–134).  When the argument holds no space, `n = npos` and the C++
unsigned wrap-around `n+1 = 0` makes both extracted substrings the whole
argument.  Otherwise `lineArg1 = lineArg.substr(n+1, lineArg.find(" ", n+1))`,
whose second parameter is a COUNT, so the absolute index of the second space
is used as a length (the surplus trailing characters are ignored by
`stof`, which parses a leading prefix). -/
def parseMACLine (stof : Stof) (lineArg : List Char) : Option (ℚ × ℚ) :=
  match findSpace lineArg with
  | none =>
    match stof lineArg with
    | none => none
    | some v => some (v, v)
  | some n =>
    let lineArg0 := lineArg.take n
    let cnt : ℕ :=
      match findSpaceFrom lineArg (n + 1) with
      | none => lineArg.length
      | some m => m
    let lineArg1 := (lineArg.drop (n + 1)).take cnt
    match stof lineArg0, stof lineArg1 with
    | some e, some c => some (e, c)
    | _, _ => none

/-- The line-scanning loop of `MassAttenCoeff` (CalcAtten.hh lines 115–136):
collects the energies and mass attenuation coefficients of every
`MAC(MeV,cm^2/g,cm^2/g):` line, in file order; a line without a space is a
fatal format error. -/
def collectMAC (stof : Stof) : List (List Char) → Except Err (List ℚ × List ℚ)
  | [] => .ok ([], [])
  | line :: rest =>
    match findSpace line with
    | none => .error .dataFormat
    | some n =>
      if line.take n = macLabel then
        match parseMACLine stof (line.drop (n + 1)) with
        | none => .error .stofFail
        | some (e, c) =>
          match collectMAC stof rest with
          | .error err => .error err
          | .ok (Es, MACs) => .ok (e :: Es, c :: MACs)
      else collectMAC stof rest

/-- `MassAttenCoeff` (CalcAtten.hh lines 94–145): scans the data file,
converts `E` from keV to MeV by dividing by 1000, and returns the
coefficient at the index chosen by `Closest`. -/
def MassAttenCoeff (fs : FileSys) (stof : Stof) (absorber : List Char) (E : ℚ) :
    Except Err ℚ :=
  match fs (DataFilePath absorber) with
  | none => .error .fileNotOpen
  | some dlines =>
    match collectMAC stof dlines with
    | .error e => .error e
    | .ok (Es, MACs) =>
      match Closest Es (E / 1000) with
      | none => .error .outOfBounds
      | some i =>
        match MACs.get? i with
        | none => .error .outOfBounds
        | some c => .ok c

/-! ## Transmission (CalcAtten.hh, `Transmit`, lines 147–161) -/

/-- The exponential attenuation law of CalcAtten.hh line 160:
`exp(-1 * c * rho * t)`. -/
noncomputable def transmitFrac (c rho t : ℚ) : ℝ :=
  Real.exp (-1 * (c : ℝ) * (rho : ℝ) * (t : ℝ))

/-- `Transmit` (CalcAtten.hh lines 147–161): parse the thickness, look up
the density and the coefficient, and apply the attenuation law. -/
noncomputable def Transmit (fs : FileSys) (stof : Stof)
    (absorber thickness : List Char) (E : ℚ) : Except Err ℝ :=
  match stof thickness with
  | none => .error .stofFail
  | some t =>
    match Density fs stof absorber with
    | .error e => .error e
    | .ok rho =>
      match MassAttenCoeff fs stof absorber E with
      | .error e => .error e
      | .ok c => .ok (transmitFrac c rho t)

/-! ## The command-script sequencer (CalcAtten.cc, `main`) -/

/-- The comma split of a `Shield(type,cm):` argument (CalcAtten.cc lines
70–72).  With no comma, `n = npos`: `substr(0, npos)` is the whole string
and the unsigned wrap-around `npos + 1 = 0` makes the second part the whole
string as well. -/
def commaSplit (s : List Char) : List Char × List Char :=
  match findComma s with
  | none => (s, s)
  | some m => (s.take m, s.drop (m + 1))

/-- The `Gamma(keV):` branch (CalcAtten.cc lines 60–64): when the label
matches, the argument is parsed and becomes the new energy. -/
def stepGamma (stof : Stof) (E : ℚ) (cmdType cmdArg : List Char) : Except Err ℚ :=
  if cmdType = gammaLabel then
    match stof cmdArg with
    | none => .error .stofFail
    | some v => .ok v
  else .ok E

/-- Processing of one macro line (CalcAtten.cc lines 51–80): split at the
first space (fatal if none), run the `Gamma(keV):` branch, then the
`Shield(type,cm):` branch, which multiplies the intensity by the
transmitted fraction. -/
noncomputable def procLine (fs : FileSys) (stof : Stof) (I : ℝ) (E : ℚ)
    (line : List Char) : Except Err (ℝ × ℚ) :=
  match findSpace line with
  | none => .error .scriptFormat
  | some n =>
    let cmdType := line.take n
    let cmdArg := line.drop (n + 1)
    match stepGamma stof E cmdType cmdArg with
    | .error e => .error e
    | .ok E1 =>
      if cmdType = shieldLabel then
        match Transmit fs stof (commaSplit cmdArg).1 (commaSplit cmdArg).2 E1 with
        | .error e => .error e
        | .ok T => .ok (I * T, E1)
      else .ok (I, E1)

/-- The macro-reading loop (CalcAtten.cc lines 51–81), from a given beam
state. -/
noncomputable def runScriptFrom (fs : FileSys) (stof : Stof) :
    ℝ → ℚ → List (List Char) → Except Err (ℝ × ℚ)
  | I, E, [] => .ok (I, E)
  | I, E, line :: rest =>
    match procLine fs stof I E line with
    | .error e => .error e
    | .ok (I1, E1) => runScriptFrom fs stof I1 E1 rest

/-- The whole macro run with the initial state of CalcAtten.cc lines 35–37:
`I = I_init = 1.0`, `E = 0.0`. -/
noncomputable def runScript (fs : FileSys) (stof : Stof)
    (lines : List (List Char)) : Except Err (ℝ × ℚ) :=
  runScriptFrom fs stof 1 0 lines

/-- Outcome of a whole process run. -/
inductive MainResult where
  | usageError : MainResult
  | fatal : Err → MainResult
  | success : ℝ → ℚ → MainResult

/-- `main` (CalcAtten.cc lines 28–88).  Note: when the macro file cannot be
opened, the `if (ifs.is_open())` block on line 44 has no `else`, so the
program falls through to `return 0` with the initial state — it does NOT
exit with a failure. -/
noncomputable def mainRun (fs : FileSys) (stof : Stof) (args : List (List Char)) :
    MainResult :=
  match args with
  | [] => .usageError
  | mfile :: _ =>
    match fs mfile with
    | none => .success 1 0
    | some lines =>
      match runScriptFrom fs stof 1 0 lines with
      | .error e => .fatal e
      | .ok (I, E) => .success I E

/-- Exit status of a run: `true` iff the process returns 0. -/
def exitOK : MainResult → Bool
  | .success _ _ => true
  | _ => false

/-- Modelled from the spec (§4.4, §8): the list of per-layer transmitted
fractions of the `Shield(type,cm):` commands of a script, together with the
final energy, following the spec's description of the sequencer; `none`
when processing fails.  Used to compare the code's running intensity with
"initialIntensity times the product of the transmitted fractions". -/
noncomputable def specShieldFractions (fs : FileSys) (stof : Stof) :
    ℚ → List (List Char) → Option (List ℝ × ℚ)
  | E, [] => some ([], E)
  | E, line :: rest =>
    match findSpace line with
    | none => none
    | some n =>
      let cmdType := line.take n
      let cmdArg := line.drop (n + 1)
      match stepGamma stof E cmdType cmdArg with
      | .error _ => none
      | .ok E1 =>
        if cmdType = shieldLabel then
          match Transmit fs stof (commaSplit cmdArg).1 (commaSplit cmdArg).2 E1 with
          | .error _ => none
          | .ok T =>
            match specShieldFractions fs stof E1 rest with
            | none => none
            | some (fr, E2) => some (T :: fr, E2)
        else specShieldFractions fs stof E1 rest

/-! ## Concrete fixtures for witnesses and counterexamples -/

/-- A concrete `stof`, defined on exactly the substrings that arise in the
fixture files below (matching what C++ `stof` returns on them, including
the prefix-parse of `"5 7"` and `"9 7"`). -/
def stofW : Stof := fun s =>
  if s = "1".toList then some 1
  else if s = "3".toList then some 3
  else if s = "5 7".toList then some 5
  else if s = "9 7".toList then some 9
  else if s = "11".toList then some 11
  else if s = "2000".toList then some 2000
  else if s = "4".toList then some 4
  else none

/-- Fixture material data file with two coefficient rows. -/
def xLines : List (List Char) :=
  ["Density(g/cm^3): 11".toList,
   "MAC(MeV,cm^2/g,cm^2/g): 1 5 7".toList,
   "MAC(MeV,cm^2/g,cm^2/g): 3 9 7".toList]

/-- Fixture material data file with a single coefficient row. -/
def yLines : List (List Char) :=
  ["Density(g/cm^3): 11".toList,
   "MAC(MeV,cm^2/g,cm^2/g): 1 5 7".toList]

/-- A concrete file system holding the two fixture materials `X` and `Y`. -/
def fsW : FileSys := fun p =>
  if p = DataFilePath "X".toList then some xLines
  else if p = DataFilePath "Y".toList then some yLines
  else none

/-! ## Lemmas about the partition points used by `Closest` -/

theorem lowerBoundIdx_cons (a : ℚ) (t : List ℚ) (val : ℚ) :
    lowerBoundIdx (a :: t) val = if a < val then lowerBoundIdx t val + 1 else 0 := by
  by_cases h : a < val <;> simp [lowerBoundIdx, List.takeWhile_cons, h]

theorem upperBoundIdx_cons (a : ℚ) (t : List ℚ) (val : ℚ) :
    upperBoundIdx (a :: t) val = if a ≤ val then upperBoundIdx t val + 1 else 0 := by
  by_cases h : a ≤ val <;> simp [upperBoundIdx, List.takeWhile_cons, h]

theorem lowerBoundIdx_le_length (vec : List ℚ) (val : ℚ) :
    lowerBoundIdx vec val ≤ vec.length := by
  induction vec with
  | nil => simp [lowerBoundIdx]
  | cons a t ih =>
    rw [lowerBoundIdx_cons]
    by_cases h : a < val
    · simp [h]; omega
    · simp [h]

theorem upperBoundIdx_le_length (vec : List ℚ) (val : ℚ) :
    upperBoundIdx vec val ≤ vec.length := by
  induction vec with
  | nil => simp [upperBoundIdx]
  | cons a t ih =>
    rw [upperBoundIdx_cons]
    by_cases h : a ≤ val
    · simp [h]; omega
    · simp [h]

/-- Every entry strictly before the `lower_bound` partition point is `< val`
(no sortedness needed). -/
theorem get_lt_of_lt_lowerBoundIdx {val : ℚ} :
    ∀ {vec : List ℚ} {j : ℕ} (hj : j < vec.length),
      j < lowerBoundIdx vec val → vec.get ⟨j, hj⟩ < val := by
  intro vec
  induction vec with
  | nil => intro j hj; simp at hj
  | cons a t ih =>
    intro j hj hlt
    rw [lowerBoundIdx_cons] at hlt
    by_cases h : a < val
    · simp only [if_pos h] at hlt
      cases j with
      | zero => simpa using h
      | succ k => exact ih (by simpa using hj) (by omega)
    · simp [if_neg h] at hlt

/-- Every entry strictly before the `upper_bound` partition point is `≤ val`
(no sortedness needed). -/
theorem get_le_of_lt_upperBoundIdx {val : ℚ} :
    ∀ {vec : List ℚ} {j : ℕ} (hj : j < vec.length),
      j < upperBoundIdx vec val → vec.get ⟨j, hj⟩ ≤ val := by
  intro vec
  induction vec with
  | nil => intro j hj; simp at hj
  | cons a t ih =>
    intro j hj hlt
    rw [upperBoundIdx_cons] at hlt
    by_cases h : a ≤ val
    · simp only [if_pos h] at hlt
      cases j with
      | zero => simpa using h
      | succ k => exact ih (by simpa using hj) (by omega)
    · simp [if_neg h] at hlt

/-- On an ascending table, every entry at or after the `lower_bound`
partition point is `≥ val`. -/
theorem le_get_of_lowerBoundIdx_le {val : ℚ} :
    ∀ {vec : List ℚ}, vec.Sorted (· < ·) →
      ∀ {j : ℕ} (hj : j < vec.length),
        lowerBoundIdx vec val ≤ j → val ≤ vec.get ⟨j, hj⟩ := by
  intro vec
  induction vec with
  | nil => intro _ j hj; simp at hj
  | cons a t ih =>
    intro hs j hj hge
    obtain ⟨ha, ht⟩ := List.sorted_cons.mp hs
    rw [lowerBoundIdx_cons] at hge
    by_cases h : a < val
    · simp only [if_pos h] at hge
      cases j with
      | zero => omega
      | succ k => exact ih ht (by simpa using hj) (by omega)
    · cases j with
      | zero => simpa using le_of_not_lt h
      | succ k =>
        have hm : t.get ⟨k, by simpa using hj⟩ ∈ t := List.get_mem t _ _
        exact le_trans (le_of_not_lt h) (le_of_lt (ha _ hm))

/-- On an ascending table, every entry at or after the `upper_bound`
partition point is `> val`. -/
theorem lt_get_of_upperBoundIdx_le {val : ℚ} :
    ∀ {vec : List ℚ}, vec.Sorted (· < ·) →
      ∀ {j : ℕ} (hj : j < vec.length),
        upperBoundIdx vec val ≤ j → val < vec.get ⟨j, hj⟩ := by
  intro vec
  induction vec with
  | nil => intro _ j hj; simp at hj
  | cons a t ih =>
    intro hs j hj hge
    obtain ⟨ha, ht⟩ := List.sorted_cons.mp hs
    rw [upperBoundIdx_cons] at hge
    by_cases h : a ≤ val
    · simp only [if_pos h] at hge
      cases j with
      | zero => omega
      | succ k => exact ih ht (by simpa using hj) (by omega)
    · cases j with
      | zero => simpa using lt_of_not_le h
      | succ k =>
        have hm : t.get ⟨k, by simpa using hj⟩ ∈ t := List.get_mem t _ _
        exact lt_trans (lt_of_not_le h) (ha _ hm)

/-- When `val` is not a table entry, `lower_bound` and `upper_bound`
coincide. -/
theorem lowerBoundIdx_eq_upperBoundIdx {vec : List ℚ} {val : ℚ} (hm : val ∉ vec) :
    lowerBoundIdx vec val = upperBoundIdx vec val := by
  induction vec with
  | nil => rfl
  | cons a t ih =>
    have hne : a ≠ val := fun h => hm (h ▸ List.mem_cons_self a t)
    have hrec := ih (fun h => hm (List.mem_cons_of_mem a h))
    rw [lowerBoundIdx_cons, upperBoundIdx_cons]
    by_cases h : a < val
    · rw [if_pos h, if_pos (le_of_lt h), hrec]
    · rw [if_neg h, if_neg (fun hle => h (lt_of_le_of_ne hle hne))]

theorem readAt_eq_some {vec : List ℚ} {i : ℤ} (h0 : 0 ≤ i)
    (hl : i.toNat < vec.length) :
    readAt vec i = some (vec.get ⟨i.toNat, hl⟩) := by
  rw [readAt, dif_pos ⟨h0, hl⟩]

theorem readAt_eq_none {vec : List ℚ} {i : ℤ}
    (h : ¬ (0 ≤ i ∧ i.toNat < vec.length)) : readAt vec i = none := by
  rw [readAt, dif_neg h]

/-- When both neighbor dereferences are in bounds, `Closest` returns the
comparison of the two absolute differences. -/
theorem closest_eq_some {vec : List ℚ} {val : ℚ}
    (h1 : 1 ≤ lowerBoundIdx vec val) (h2 : upperBoundIdx vec val < vec.length)
    (hl : lowerBoundIdx vec val - 1 < vec.length) :
    Closest vec val =
      some (if fabs (vec.get ⟨upperBoundIdx vec val, h2⟩ - val) >
                fabs (vec.get ⟨lowerBoundIdx vec val - 1, hl⟩ - val)
            then lowerBoundIdx vec val - 1 else upperBoundIdx vec val) := by
  have e1 : ((lowerBoundIdx vec val : ℤ) - 1).toNat = lowerBoundIdx vec val - 1 := by
    omega
  have r1 : readAt vec ((lowerBoundIdx vec val : ℤ) - 1) =
      some (vec.get ⟨lowerBoundIdx vec val - 1, hl⟩) := by
    rw [readAt_eq_some (by omega)
      (by omega : ((lowerBoundIdx vec val : ℤ) - 1).toNat < vec.length)]
    simp only [e1]
  have r2 : readAt vec (upperBoundIdx vec val : ℤ) =
      some (vec.get ⟨upperBoundIdx vec val, h2⟩) := by
    rw [readAt_eq_some (by omega) (by simpa using h2)]
    simp only [Int.toNat_natCast]
  rw [Closest, r1, r2]
  rw [e1]

/-- When the `lb` iterator under-runs the table, `Closest` performs an
out-of-bounds read. -/
theorem closest_eq_none_left {vec : List ℚ} {val : ℚ}
    (h : lowerBoundIdx vec val = 0) : Closest vec val = none := by
  have r1 : readAt vec ((lowerBoundIdx vec val : ℤ) - 1) = none := by
    apply readAt_eq_none
    rw [h]
    simp
  rw [Closest, r1]

/-- When the `ub` iterator over-runs the table, `Closest` performs an
out-of-bounds read. -/
theorem closest_eq_none_right {vec : List ℚ} {val : ℚ}
    (h : upperBoundIdx vec val = vec.length) : Closest vec val = none := by
  have r2 : readAt vec (upperBoundIdx vec val : ℤ) = none := by
    apply readAt_eq_none
    rw [h]
    simp
  rw [Closest, r2]
  cases readAt vec ((lowerBoundIdx vec val : ℤ) - 1) <;> rfl

theorem upperBoundIdx_eq_length {vec : List ℚ} {val : ℚ} (h : ∀ x ∈ vec, x ≤ val) :
    upperBoundIdx vec val = vec.length := by
  induction vec with
  | nil => rfl
  | cons a t ih =>
    rw [upperBoundIdx_cons, if_pos (h a (List.mem_cons_self a t)),
      ih (fun x hx => h x (List.mem_cons_of_mem a hx))]
    simp

theorem le_getLast_of_sorted {vec : List ℚ} (hs : vec.Sorted (· < ·))
    (hne : vec ≠ []) {x : ℚ} (hx : x ∈ vec) : x ≤ vec.getLast hne := by
  induction vec with
  | nil => simp at hx
  | cons a t ih =>
    obtain ⟨ha, ht⟩ := List.sorted_cons.mp hs
    rcases List.mem_cons.mp hx with rfl | hxt
    · cases t with
      | nil => simp [List.getLast]
      | cons b u =>
        rw [List.getLast_cons (List.cons_ne_nil b u)]
        exact le_of_lt (ha _ (List.getLast_mem (List.cons_ne_nil b u)))
    · have hne2 : t ≠ [] := List.ne_nil_of_mem hxt
      rw [List.getLast_cons hne2]
      exact ih ht hne2 hxt

theorem one_le_lowerBoundIdx_of_head {vec : List ℚ} {val a0 : ℚ}
    (h0 : vec.head? = some a0) (ha : a0 < val) : 1 ≤ lowerBoundIdx vec val := by
  cases vec with
  | nil => simp at h0
  | cons a t =>
    have : a = a0 := by simpa using h0
    subst this
    rw [lowerBoundIdx_cons, if_pos ha]
    omega

theorem upperBoundIdx_lt_length_of_lt_getLast {vec : List ℚ} {val aL : ℚ}
    (hne : vec ≠ []) (hL : vec.getLast? = some aL) (hv : val < aL) :
    upperBoundIdx vec val < vec.length := by
  have hlast : vec.getLast hne = aL := by
    have := List.getLast?_eq_getLast_of_ne_nil hne
    rw [hL] at this
    exact (Option.some_injective _ this.symm)
  have hlen : 0 < vec.length := List.length_pos.mpr hne
  have hle := upperBoundIdx_le_length vec val
  rcases lt_or_eq_of_le hle with h | h
  · exact h
  · exfalso
    have hj : vec.length - 1 < vec.length := by omega
    have := @get_le_of_lt_upperBoundIdx val vec (vec.length - 1) hj (by omega)
    rw [← List.getLast_eq_get vec hne, hlast] at this
    exact absurd hv (not_lt.mpr this)

/-- C4: on a non-empty ascending table, the `lb` read under-runs (index −1)
whenever the query is below all tabulated energies or equals the smallest
one; the `ub` read over-runs (one past the end) whenever the query is above
all tabulated energies or equals the largest one; and every access is in
bounds exactly when the query lies strictly between the first and the last
tabulated energies. -/
theorem c4_closest_boundary (vec : List ℚ) (val : ℚ)
    (hs : vec.Sorted (· < ·)) (hne : vec ≠ []) :
    ((∀ x ∈ vec, val < x) ∨ vec.head? = some val →
      lowerBoundIdx vec val = 0 ∧
      readAt vec ((lowerBoundIdx vec val : ℤ) - 1) = none) ∧
    ((∀ x ∈ vec, x < val) ∨ vec.getLast? = some val →
      upperBoundIdx vec val = vec.length ∧
      readAt vec (upperBoundIdx vec val : ℤ) = none) ∧
    ((Closest vec val).isSome = true ↔
      ∃ a0 aL, vec.head? = some a0 ∧ vec.getLast? = some aL ∧
        a0 < val ∧ val < aL) := by
  obtain ⟨a, t, rfl⟩ : ∃ a t, vec = a :: t := by
    cases vec with
    | nil => exact absurd rfl hne
    | cons a t => exact ⟨a, t, rfl⟩
  refine ⟨?_, ?_, ?_⟩
  · intro h
    have hna : ¬ a < val := by
      rcases h with h | h
      · exact asymm (h a (List.mem_cons_self a t))
      · have : a = val := by simpa using h
        simp [this]
    have hL : lowerBoundIdx (a :: t) val = 0 := by
      rw [lowerBoundIdx_cons, if_neg hna]
    refine ⟨hL, ?_⟩
    apply readAt_eq_none
    rw [hL]
    simp
  · intro h
    have hall : ∀ x ∈ a :: t, x ≤ val := by
      rcases h with h | h
      · exact fun x hx => le_of_lt (h x hx)
      · intro x hx
        have hlast : (a :: t).getLast (List.cons_ne_nil a t) = val := by
          have := List.getLast?_eq_getLast_of_ne_nil (List.cons_ne_nil a t)
          rw [h] at this
          exact (Option.some_injective _ this.symm)
        exact hlast ▸ le_getLast_of_sorted hs (List.cons_ne_nil a t) hx
    have hU := upperBoundIdx_eq_length hall
    refine ⟨hU, ?_⟩
    apply readAt_eq_none
    rw [hU]
    simp
  · constructor
    · intro hsome
      have h1 : 1 ≤ lowerBoundIdx (a :: t) val := by
        by_contra hc
        rw [closest_eq_none_left (by omega)] at hsome
        simp at hsome
      have h2 : upperBoundIdx (a :: t) val < (a :: t).length := by
        rcases lt_or_eq_of_le (upperBoundIdx_le_length (a :: t) val) with h | h
        · exact h
        · rw [closest_eq_none_right h] at hsome
          simp at hsome
      refine ⟨a, (a :: t).getLast (List.cons_ne_nil a t), rfl,
        List.getLast?_eq_getLast_of_ne_nil _, ?_, ?_⟩
      · have := @get_lt_of_lt_lowerBoundIdx val (a :: t) 0
          (by simp : (0:ℕ) < (a :: t).length) (by omega)
        simpa using this
      · have hUlt := lt_get_of_upperBoundIdx_le hs h2 (le_refl _)
        have hmono := (List.Sorted.get_strictMono hs).monotone
          (Fin.mk_le_mk.mpr (by omega : upperBoundIdx (a :: t) val ≤ (a :: t).length - 1)
            : (⟨upperBoundIdx (a :: t) val, h2⟩ : Fin (a :: t).length) ≤
              ⟨(a :: t).length - 1, by omega⟩)
        rw [List.getLast_eq_get]
        exact lt_of_lt_of_le hUlt hmono
    · rintro ⟨a0, aL, h0, hL, hlo, hhi⟩
      have h1 : 1 ≤ lowerBoundIdx (a :: t) val :=
        one_le_lowerBoundIdx_of_head h0 hlo
      have h2 : upperBoundIdx (a :: t) val < (a :: t).length :=
        upperBoundIdx_lt_length_of_lt_getLast (List.cons_ne_nil a t) hL hhi
      have hl : lowerBoundIdx (a :: t) val - 1 < (a :: t).length := by
        have := lowerBoundIdx_le_length (a :: t) val
        simp at this ⊢
        omega
      rw [closest_eq_some h1 h2 hl]
      rfl

theorem fabs_sub_of_lt {x val : ℚ} (h : x < val) : fabs (x - val) = val - x := by
  rw [fabs, if_pos (by linarith)]
  ring

theorem fabs_sub_of_ge {x val : ℚ} (h : val ≤ x) : fabs (x - val) = x - val := by
  rw [fabs, if_neg (by linarith)]

/-- C2 counterexample: on the ascending table `[1, 2, 3]` the query `2` is
tabulated at index 1 with difference 0, yet `Closest` returns index 2 —
neither the exact index nor an index of minimal absolute difference. -/
theorem c2_closest_counterexample :
    ([1, 2, 3] : List ℚ).Sorted (· < ·) ∧
    ([1, 2, 3] : List ℚ).getD 1 0 = 2 ∧
    Closest [1, 2, 3] (2 : ℚ) = some 2 ∧
    fabs (([1, 2, 3] : List ℚ).getD 1 0 - 2) <
      fabs (([1, 2, 3] : List ℚ).getD 2 0 - 2) := by
  refine ⟨by decide, by with_unfolding_all rfl, by with_unfolding_all rfl, ?_⟩
  with_unfolding_all decide

/-- C2 (amended): for a non-empty ascending table and a query lying strictly
between the first and last entries and NOT equal to any tabulated energy,
`Closest` returns an index of minimal absolute difference to the query.
(The original claim fails for queries equal to a tabulated energy: the code
then returns a neighbouring index, not the exact one.) -/
theorem c2_closest_minimal (vec : List ℚ) (val : ℚ) (hs : vec.Sorted (· < ·))
    (hm : val ∉ vec) (a0 aL : ℚ) (h0 : vec.head? = some a0)
    (hL : vec.getLast? = some aL) (hlo : a0 < val) (hhi : val < aL) :
    ∃ i < vec.length, Closest vec val = some i ∧
      ∀ j < vec.length, fabs (vec.getD i 0 - val) ≤ fabs (vec.getD j 0 - val) := by
  have hne : vec ≠ [] := by
    cases vec with
    | nil => simp at h0
    | cons a t => exact List.cons_ne_nil a t
  have h1 : 1 ≤ lowerBoundIdx vec val := one_le_lowerBoundIdx_of_head h0 hlo
  have h2 : upperBoundIdx vec val < vec.length :=
    upperBoundIdx_lt_length_of_lt_getLast hne hL hhi
  have hLU : lowerBoundIdx vec val = upperBoundIdx vec val :=
    lowerBoundIdx_eq_upperBoundIdx hm
  have hl : lowerBoundIdx vec val - 1 < vec.length := by omega
  have hlv : vec.get ⟨lowerBoundIdx vec val - 1, hl⟩ < val :=
    get_lt_of_lt_lowerBoundIdx hl (by omega)
  have huv : val < vec.get ⟨upperBoundIdx vec val, h2⟩ :=
    lt_get_of_upperBoundIdx_le hs h2 (le_refl _)
  have hmono := (List.Sorted.get_strictMono hs).monotone
  have key : ∀ j (hj : j < vec.length),
      fabs (vec.get ⟨lowerBoundIdx vec val - 1, hl⟩ - val) ≤
          fabs (vec.get ⟨j, hj⟩ - val) ∨
        fabs (vec.get ⟨upperBoundIdx vec val, h2⟩ - val) ≤
          fabs (vec.get ⟨j, hj⟩ - val) := by
    intro j hj
    by_cases hcase : j < upperBoundIdx vec val
    · left
      have hjle : vec.get ⟨j, hj⟩ ≤ vec.get ⟨lowerBoundIdx vec val - 1, hl⟩ :=
        hmono (Fin.mk_le_mk.mpr (by omega))
      have hjlt : vec.get ⟨j, hj⟩ < val := lt_of_le_of_lt hjle hlv
      rw [fabs_sub_of_lt hjlt, fabs_sub_of_lt hlv]
      linarith
    · right
      have hjge : vec.get ⟨upperBoundIdx vec val, h2⟩ ≤ vec.get ⟨j, hj⟩ :=
        hmono (Fin.mk_le_mk.mpr (by omega))
      have hjgt : val < vec.get ⟨j, hj⟩ := lt_of_lt_of_le huv hjge
      rw [fabs_sub_of_ge (le_of_lt hjgt), fabs_sub_of_ge (le_of_lt huv)]
      linarith
  rw [closest_eq_some h1 h2 hl]
  by_cases hcmp : fabs (vec.get ⟨upperBoundIdx vec val, h2⟩ - val) >
      fabs (vec.get ⟨lowerBoundIdx vec val - 1, hl⟩ - val)
  · refine ⟨lowerBoundIdx vec val - 1, by omega, by rw [if_pos hcmp], ?_⟩
    intro j hj
    rw [List.getD_eq_get vec 0 (by omega : lowerBoundIdx vec val - 1 < vec.length),
      List.getD_eq_get vec 0 hj]
    rcases key j hj with h | h
    · exact h
    · exact le_trans (le_of_lt hcmp) h
  · refine ⟨upperBoundIdx vec val, h2, by rw [if_neg hcmp], ?_⟩
    intro j hj
    rw [List.getD_eq_get vec 0 h2, List.getD_eq_get vec 0 hj]
    rcases key j hj with h | h
    · exact le_trans (le_of_not_lt hcmp) h
    · exact h

/-- C2 witness: the amended C2 applied to the table `[1, 3]` and the query
`2`, which lies strictly between the entries and is not tabulated. -/
theorem c2_closest_minimal_witness :
    ([1, 3] : List ℚ).Sorted (· < ·) ∧ (2 : ℚ) ∉ ([1, 3] : List ℚ) ∧
    ∃ i < ([1, 3] : List ℚ).length, Closest [1, 3] (2 : ℚ) = some i ∧
      ∀ j < ([1, 3] : List ℚ).length,
        fabs (([1, 3] : List ℚ).getD i 0 - 2) ≤
          fabs (([1, 3] : List ℚ).getD j 0 - 2) :=
  ⟨by decide, by decide,
    c2_closest_minimal [1, 3] 2 (by decide) (by decide) 1 3 rfl rfl
      (by decide) (by decide)⟩

/-- C3 counterexample: on the ascending table `[1, 2, 4]` with query `2`,
the largest index with energy ≤ 2 is 1 (`vec[1] = 2`, difference 0), so the
claim predicts index 1; but the code's `lb` is `lower_bound - 1 = 0` (and
`lb ≠ ub - 1` since `ub = 2`), and `Closest` returns index 0. -/
theorem c3_closest_counterexample :
    ([1, 2, 4] : List ℚ).Sorted (· < ·) ∧
    ([1, 2, 4] : List ℚ).getD 1 0 ≤ 2 ∧
    lowerBoundIdx [1, 2, 4] (2 : ℚ) = 1 ∧
    upperBoundIdx [1, 2, 4] (2 : ℚ) = 2 ∧
    Closest [1, 2, 4] (2 : ℚ) = some 0 := by
  refine ⟨by decide, by with_unfolding_all decide, ?_, ?_, ?_⟩ <;>
    with_unfolding_all rfl

/-- C3 (amended): for a non-empty ascending table and a query strictly
between the first and last entries and NOT equal to any tabulated energy,
`Closest` selects between `lb` — the largest index whose energy is strictly
less than the query, which then equals `ub - 1` — and `ub` — the smallest
index whose energy strictly exceeds the query — and returns whichever has
the smaller absolute difference, ties returning `ub`.  (The original claim
fails for tabulated queries, where the code's `lb` is `ub - 2`.) -/
theorem c3_closest_selection (vec : List ℚ) (val : ℚ) (hs : vec.Sorted (· < ·))
    (hm : val ∉ vec) (a0 aL : ℚ) (h0 : vec.head? = some a0)
    (hL : vec.getLast? = some aL) (hlo : a0 < val) (hhi : val < aL) :
    lowerBoundIdx vec val = upperBoundIdx vec val ∧
    1 ≤ upperBoundIdx vec val ∧ upperBoundIdx vec val < vec.length ∧
    (vec.getD (upperBoundIdx vec val - 1) 0 < val ∧
      ∀ j < vec.length, vec.getD j 0 < val → j ≤ upperBoundIdx vec val - 1) ∧
    (val < vec.getD (upperBoundIdx vec val) 0 ∧
      ∀ j < vec.length, val < vec.getD j 0 → upperBoundIdx vec val ≤ j) ∧
    Closest vec val =
      some (if fabs (vec.getD (upperBoundIdx vec val) 0 - val) >
                fabs (vec.getD (upperBoundIdx vec val - 1) 0 - val)
            then upperBoundIdx vec val - 1 else upperBoundIdx vec val) := by
  have hne : vec ≠ [] := by
    cases vec with
    | nil => simp at h0
    | cons a t => exact List.cons_ne_nil a t
  have h1 : 1 ≤ lowerBoundIdx vec val := one_le_lowerBoundIdx_of_head h0 hlo
  have h2 : upperBoundIdx vec val < vec.length :=
    upperBoundIdx_lt_length_of_lt_getLast hne hL hhi
  have hLU : lowerBoundIdx vec val = upperBoundIdx vec val :=
    lowerBoundIdx_eq_upperBoundIdx hm
  have hl : upperBoundIdx vec val - 1 < vec.length := by omega
  have hl2 : lowerBoundIdx vec val - 1 < vec.length := by omega
  refine ⟨hLU, by omega, h2, ⟨?_, ?_⟩, ⟨?_, ?_⟩, ?_⟩
  · rw [List.getD_eq_getElem vec 0 hl]
    exact get_lt_of_lt_lowerBoundIdx hl (by omega)
  · intro j hj hjlt
    rw [List.getD_eq_getElem vec 0 hj] at hjlt
    by_contra hc
    have : lowerBoundIdx vec val ≤ j := by omega
    exact absurd hjlt (not_lt.mpr (le_get_of_lowerBoundIdx_le hs hj this))
  · rw [List.getD_eq_getElem vec 0 h2]
    exact lt_get_of_upperBoundIdx_le hs h2 (le_refl _)
  · intro j hj hjgt
    rw [List.getD_eq_getElem vec 0 hj] at hjgt
    by_contra hc
    have : j < upperBoundIdx vec val := by omega
    exact absurd hjgt (not_lt.mpr (get_le_of_lt_upperBoundIdx hj this))
  · have hc := closest_eq_some h1 h2 hl2
    have hidx : lowerBoundIdx vec val - 1 = upperBoundIdx vec val - 1 := by omega
    have hgv : vec.get ⟨lowerBoundIdx vec val - 1, hl2⟩ =
        vec.get ⟨upperBoundIdx vec val - 1, hl⟩ := by
      congr 1
      exact Fin.mk_eq_mk.mpr hidx
    rw [hc, List.getD_eq_getElem vec 0 h2, List.getD_eq_getElem vec 0 hl, hgv, hidx]
    simp only [List.get_eq_getElem]

/-- C3 witness: the amended C3 applied to the table `[1, 3]` and the
non-tabulated interior query `2`. -/
theorem c3_closest_selection_witness :
    ([1, 3] : List ℚ).Sorted (· < ·) ∧ (2 : ℚ) ∉ ([1, 3] : List ℚ) ∧
    lowerBoundIdx [1, 3] (2 : ℚ) = upperBoundIdx [1, 3] (2 : ℚ) ∧
    Closest [1, 3] (2 : ℚ) =
      some (if fabs (([1, 3] : List ℚ).getD (upperBoundIdx [1, 3] (2 : ℚ)) 0 - 2) >
                fabs (([1, 3] : List ℚ).getD (upperBoundIdx [1, 3] (2 : ℚ) - 1) 0 - 2)
            then upperBoundIdx [1, 3] (2 : ℚ) - 1 else upperBoundIdx [1, 3] (2 : ℚ)) := by
  have h := c3_closest_selection [1, 3] 2 (by decide) (by decide) 1 3 rfl rfl
    (by decide) (by decide)
  exact ⟨by decide, by decide, h.1, h.2.2.2.2.2⟩

/-- The two vectors filled by `MassAttenCoeff`'s loop always have the same
length (one `push_back` on each per accepted line). -/
theorem collectMAC_length {stof : Stof} :
    ∀ {lines : List (List Char)} {Es MACs : List ℚ},
      collectMAC stof lines = .ok (Es, MACs) → Es.length = MACs.length := by
  intro lines
  induction lines with
  | nil =>
    intro Es MACs h
    simp only [collectMAC, Except.ok.injEq, Prod.mk.injEq] at h
    rw [← h.1, ← h.2]
  | cons line rest ih =>
    intro Es MACs h
    cases hsp : findSpace line with
    | none =>
      simp only [collectMAC, hsp] at h
      exact absurd h (by simp)
    | some n =>
      by_cases hlab : line.take n = macLabel
      · cases hp : parseMACLine stof (line.drop (n + 1)) with
        | none =>
          simp only [collectMAC, hsp, hp, if_pos hlab] at h
          exact absurd h (by simp)
        | some pr =>
          obtain ⟨e, c⟩ := pr
          cases hr : collectMAC stof rest with
          | error err =>
            simp only [collectMAC, hsp, hp, if_pos hlab, hr] at h
            exact absurd h (by simp)
          | ok val =>
            obtain ⟨Es2, MACs2⟩ := val
            simp only [collectMAC, hsp, hp, if_pos hlab, hr, Except.ok.injEq,
              Prod.mk.injEq] at h
            rw [← h.1, ← h.2]
            simpa using ih hr
      · simp only [collectMAC, hsp, if_neg hlab] at h
        exact ih h

/-- C1 counterexample: the fixture material `Y` has density 11, the
ascending one-row table `([1], [5])`, and the thickness string `"4"` parses
to 4; the claim then promises `Transmit = exp(-5·11·4)` for every energy,
but at `E = 2000` keV (query 2 MeV, beyond the table) the code performs an
out-of-bounds read instead of returning the formula's value. -/
theorem c1_transmit_counterexample :
    Density fsW stofW "Y".toList = .ok 11 ∧
    collectMAC stofW yLines = .ok ([1], [5]) ∧
    ([1] : List ℚ).Sorted (· < ·) ∧
    stofW "4".toList = some 4 ∧
    Transmit fsW stofW "Y".toList "4".toList 2000 = .error .outOfBounds := by
  refine ⟨?_, ?_, by decide, ?_, ?_⟩ <;> with_unfolding_all rfl

/-- C1 (amended): for every material whose data file yields density `rho`
and an ascending coefficient table `(Es, MACs)`, every thickness string
parsing to `t`, and every energy `E` in keV WHOSE CONVERTED QUERY `E/1000`
LIES STRICTLY BETWEEN THE FIRST AND LAST TABULATED ENERGIES (so that the
nearest-energy lookup stays in bounds), `Transmit` returns
`exp(-c·rho·t)` with `c = MACs[Closest(Es, E/1000)]`.  (The original claim
fails for energies at or beyond the table boundaries, where the lookup
reads out of bounds — see the counterexample.) -/
theorem c1_transmit_formula (fs : FileSys) (stof : Stof)
    (absorber thickness : List Char) (E rho t : ℚ)
    (dlines : List (List Char)) (Es MACs : List ℚ) (a0 aL : ℚ)
    (hfs : fs (DataFilePath absorber) = some dlines)
    (hrho : densityScan stof dlines = .ok rho)
    (hmac : collectMAC stof dlines = .ok (Es, MACs))
    (ht : stof thickness = some t)
    (h0 : Es.head? = some a0) (hL : Es.getLast? = some aL)
    (hlo : a0 < E / 1000) (hhi : E / 1000 < aL) :
    ∃ i < Es.length, Closest Es (E / 1000) = some i ∧
      Transmit fs stof absorber thickness E =
        .ok (transmitFrac (MACs.getD i 0) rho t) := by
  have hne : Es ≠ [] := by
    cases Es with
    | nil => simp at h0
    | cons a u => exact List.cons_ne_nil a u
  have h1 : 1 ≤ lowerBoundIdx Es (E / 1000) := one_le_lowerBoundIdx_of_head h0 hlo
  have h2 : upperBoundIdx Es (E / 1000) < Es.length :=
    upperBoundIdx_lt_length_of_lt_getLast hne hL hhi
  have hl : lowerBoundIdx Es (E / 1000) - 1 < Es.length := by
    have := lowerBoundIdx_le_length Es (E / 1000)
    omega
  have hcl := closest_eq_some h1 h2 hl
  set i : ℕ := if fabs (Es.get ⟨upperBoundIdx Es (E / 1000), h2⟩ - E / 1000) >
      fabs (Es.get ⟨lowerBoundIdx Es (E / 1000) - 1, hl⟩ - E / 1000)
    then lowerBoundIdx Es (E / 1000) - 1 else upperBoundIdx Es (E / 1000) with hidef
  have hiEs : i < Es.length := by
    rw [hidef]
    split <;> omega
  have hlen : Es.length = MACs.length := collectMAC_length hmac
  have hiM : i < MACs.length := by omega
  have hget : MACs.get? i = some (MACs.getD i 0) := by
    rw [List.getD_eq_getElem MACs 0 hiM, List.get?_eq_getElem?,
      List.getElem?_eq_getElem hiM]
  refine ⟨i, hiEs, hcl, ?_⟩
  simp only [Transmit, ht, Density, hfs, hrho, MassAttenCoeff, hmac, hcl, hget]

/-- C1 witness: the amended C1 applied to the fixture material `X`
(density 11, table `([1, 3], [5, 9])`), thickness `"4"`, energy 2000 keV
(query 2 MeV, strictly inside the table). -/
theorem c1_transmit_formula_witness :
    densityScan stofW xLines = .ok 11 ∧
    collectMAC stofW xLines = .ok ([1, 3], [5, 9]) ∧
    stofW "4".toList = some 4 ∧
    ∃ i < ([1, 3] : List ℚ).length, Closest [1, 3] (2000 / 1000 : ℚ) = some i ∧
      Transmit fsW stofW "X".toList "4".toList 2000 =
        .ok (transmitFrac (([5, 9] : List ℚ).getD i 0) 11 4) :=
  ⟨by with_unfolding_all rfl, by with_unfolding_all rfl, by with_unfolding_all rfl,
    c1_transmit_formula fsW stofW "X".toList "4".toList 2000 11 4 xLines
      [1, 3] [5, 9] 1 3 (by with_unfolding_all rfl) (by with_unfolding_all rfl)
      (by with_unfolding_all rfl) (by with_unfolding_all rfl) rfl rfl
      (by with_unfolding_all decide) (by with_unfolding_all decide)⟩

/-- C9: for all non-negative coefficient `c`, density `rho` and thickness
`t`, the transmitted fraction computed by `Transmit`'s formula equals
`exp(-(c·rho·t))`, lies in the half-open interval `(0, 1]`, and is
monotonically decreasing in each of `c`, `rho`, `t` independently. -/
theorem c9_transmit_range_monotone (c rho t : ℚ)
    (hc : 0 ≤ c) (hr : 0 ≤ rho) (ht : 0 ≤ t) :
    transmitFrac c rho t = Real.exp (-((c : ℝ) * rho * t)) ∧
    0 < transmitFrac c rho t ∧ transmitFrac c rho t ≤ 1 ∧
    (∀ c2 : ℚ, c ≤ c2 → transmitFrac c2 rho t ≤ transmitFrac c rho t) ∧
    (∀ r2 : ℚ, rho ≤ r2 → transmitFrac c r2 t ≤ transmitFrac c rho t) ∧
    (∀ t2 : ℚ, t ≤ t2 → transmitFrac c rho t2 ≤ transmitFrac c rho t) := by
  have hfc : ∀ a b d : ℚ, transmitFrac a b d = Real.exp (-((a : ℝ) * b * d)) := by
    intro a b d
    rw [transmitFrac]
    ring_nf
  have hc' : (0 : ℝ) ≤ (c : ℝ) := by exact_mod_cast hc
  have hr' : (0 : ℝ) ≤ (rho : ℝ) := by exact_mod_cast hr
  have ht' : (0 : ℝ) ≤ (t : ℝ) := by exact_mod_cast ht
  refine ⟨hfc c rho t, ?_, ?_, ?_, ?_, ?_⟩
  · rw [transmitFrac]
    exact Real.exp_pos _
  · rw [hfc]
    apply Real.exp_le_one_iff.mpr
    have : (0 : ℝ) ≤ (c : ℝ) * rho * t := by positivity
    linarith
  · intro c2 h
    rw [hfc, hfc]
    apply Real.exp_le_exp.mpr
    have h' : (c : ℝ) ≤ (c2 : ℝ) := by exact_mod_cast h
    nlinarith [mul_le_mul_of_nonneg_right h' (mul_nonneg hr' ht')]
  · intro r2 h
    rw [hfc, hfc]
    apply Real.exp_le_exp.mpr
    have h' : (rho : ℝ) ≤ (r2 : ℝ) := by exact_mod_cast h
    nlinarith [mul_le_mul_of_nonneg_right h' (mul_nonneg hc' ht')]
  · intro t2 h
    rw [hfc, hfc]
    apply Real.exp_le_exp.mpr
    have h' : (t : ℝ) ≤ (t2 : ℝ) := by exact_mod_cast h
    nlinarith [mul_le_mul_of_nonneg_right h' (mul_nonneg hc' hr')]

/-- C9 witness: the range bounds at coefficient 5, density 11,
thickness 4. -/
theorem c9_transmit_range_monotone_witness :
    0 < transmitFrac 5 11 4 ∧ transmitFrac 5 11 4 ≤ 1 :=
  ⟨(c9_transmit_range_monotone 5 11 4 (by decide) (by decide) (by decide)).2.1,
   (c9_transmit_range_monotone 5 11 4 (by decide) (by decide) (by decide)).2.2.1⟩

/-- A macro line with an unrecognized label is skipped: no branch fires. -/
theorem procLine_skip (fs : FileSys) (stof : Stof) (I : ℝ) (E : ℚ)
    (line : List Char) (n : ℕ) (hn : findSpace line = some n)
    (hg : line.take n ≠ gammaLabel) (hsh : line.take n ≠ shieldLabel) :
    procLine fs stof I E line = .ok (I, E) := by
  simp only [procLine, hn, stepGamma, hg, hsh, if_false, ite_false]

/-- C7: a command-script line whose label matches neither `Gamma(keV):` nor
`Shield(type,cm):` is ignored with no error, leaves the beam state (energy
and intensity) unchanged, and processing continues with the next line. -/
theorem c7_unrecognized_skipped (fs : FileSys) (stof : Stof) (I : ℝ) (E : ℚ)
    (line : List Char) (rest : List (List Char)) (n : ℕ)
    (hn : findSpace line = some n)
    (hg : line.take n ≠ gammaLabel) (hsh : line.take n ≠ shieldLabel) :
    procLine fs stof I E line = .ok (I, E) ∧
    runScriptFrom fs stof I E (line :: rest) = runScriptFrom fs stof I E rest := by
  have hp := procLine_skip fs stof I E line n hn hg hsh
  exact ⟨hp, by simp only [runScriptFrom, hp]⟩

/-- C7 witness: the comment-like line `"Note: hi"` is skipped by the
sequencer with the beam state untouched. -/
theorem c7_unrecognized_skipped_witness :
    findSpace "Note: hi".toList = some 5 ∧
    procLine fsW stofW 1 0 "Note: hi".toList = .ok (1, 0) ∧
    runScriptFrom fsW stofW 1 0 ["Note: hi".toList] = runScriptFrom fsW stofW 1 0 [] := by
  have h := c7_unrecognized_skipped fsW stofW 1 0 "Note: hi".toList [] 5
    (by with_unfolding_all rfl) (by decide) (by decide)
  exact ⟨by with_unfolding_all rfl, h.1, h.2⟩

/-- C8: a line with no space separating label from argument is fatal
wherever it is reached: the sequencer fails with the macro-format error (and
does not proceed to later lines), the density scan fails with the data-file
format error, and a data file holding such a line anywhere makes the
coefficient scan fail. -/
theorem c8_no_space_fatal :
    (∀ (fs : FileSys) (stof : Stof) (I : ℝ) (E : ℚ) (line : List Char)
        (rest : List (List Char)), findSpace line = none →
          procLine fs stof I E line = .error .scriptFormat ∧
          runScriptFrom fs stof I E (line :: rest) = .error .scriptFormat) ∧
    (∀ (stof : Stof) (line : List Char) (rest : List (List Char)),
        findSpace line = none →
          densityScan stof (line :: rest) = .error .dataFormat) ∧
    (∀ (stof : Stof) (lines : List (List Char)) (line : List Char),
        line ∈ lines → findSpace line = none →
          ∃ e, collectMAC stof lines = .error e) := by
  refine ⟨?_, ?_, ?_⟩
  · intro fs stof I E line rest h
    have hp : procLine fs stof I E line = .error .scriptFormat := by
      simp only [procLine, h]
    exact ⟨hp, by simp only [runScriptFrom, hp]⟩
  · intro stof line rest h
    simp only [densityScan, h]
  · intro stof lines
    induction lines with
    | nil => intro line hmem; simp at hmem
    | cons l rest ih =>
      intro line hmem hnone
      rcases List.mem_cons.mp hmem with rfl | hmem2
      · exact ⟨.dataFormat, by simp only [collectMAC, hnone]⟩
      · cases hsp : findSpace l with
        | none => exact ⟨.dataFormat, by simp only [collectMAC, hsp]⟩
        | some n =>
          by_cases hlab : l.take n = macLabel
          · cases hp : parseMACLine stof (l.drop (n + 1)) with
            | none =>
              exact ⟨.stofFail, by simp only [collectMAC, hsp, hp, if_pos hlab]⟩
            | some pr =>
              obtain ⟨e, c⟩ := pr
              obtain ⟨err, herr⟩ := ih line hmem2 hnone
              exact ⟨err, by simp only [collectMAC, hsp, hp, if_pos hlab, herr]⟩
          · obtain ⟨err, herr⟩ := ih line hmem2 hnone
            exact ⟨err, by simp only [collectMAC, hsp, if_neg hlab]; exact herr⟩

/-- C8 witness: the space-free line `"NoSpacesHere"` is fatal in the
sequencer, in the density scan, and (as a member of a data file) in the
coefficient scan. -/
theorem c8_no_space_fatal_witness :
    findSpace "NoSpacesHere".toList = none ∧
    procLine fsW stofW 1 0 "NoSpacesHere".toList = .error .scriptFormat ∧
    densityScan stofW ["NoSpacesHere".toList] = .error .dataFormat ∧
    ∃ e, collectMAC stofW ["NoSpacesHere".toList] = .error e := by
  have hn : findSpace "NoSpacesHere".toList = none := by with_unfolding_all rfl
  exact ⟨hn, (c8_no_space_fatal.1 fsW stofW 1 0 _ [] hn).1,
    c8_no_space_fatal.2.1 stofW _ [] hn,
    c8_no_space_fatal.2.2 stofW ["NoSpacesHere".toList] _ (List.mem_singleton.mpr rfl) hn⟩

/-- A successful run over lines without any `Shield(type,cm):` label leaves
the intensity untouched. -/
theorem runScriptFrom_no_shield {fs : FileSys} {stof : Stof} :
    ∀ {lines : List (List Char)} {I : ℝ} {E : ℚ} {I2 : ℝ} {E2 : ℚ},
      runScriptFrom fs stof I E lines = .ok (I2, E2) →
      (∀ line ∈ lines, ∀ n, findSpace line = some n → line.take n ≠ shieldLabel) →
      I2 = I := by
  intro lines
  induction lines with
  | nil =>
    intro I E I2 E2 h _
    rw [runScriptFrom] at h
    injection h with h
    simp only [Prod.mk.injEq] at h
    exact h.1.symm
  | cons line rest ih =>
    intro I E I2 E2 h hns
    cases hsp : findSpace line with
    | none =>
      simp only [runScriptFrom, procLine, hsp] at h
      exact absurd h (by simp)
    | some n =>
      cases hg : stepGamma stof E (line.take n) (line.drop (n + 1)) with
      | error e =>
        simp only [runScriptFrom, procLine, hsp, hg] at h
        exact absurd h (by simp)
      | ok E1 =>
        have hsh : line.take n ≠ shieldLabel :=
          hns line (List.mem_cons_self line rest) n hsp
        simp only [runScriptFrom, procLine, hsp, hg, hsh, ite_false, if_false] at h
        exact ih h (fun l hl => hns l (List.mem_cons_of_mem line hl))

/-- A successful run multiplies the starting intensity by the product of
the per-layer transmitted fractions described by the spec. -/
theorem runScriptFrom_spec_fractions {fs : FileSys} {stof : Stof} :
    ∀ {lines : List (List Char)} {I : ℝ} {E : ℚ} {I2 : ℝ} {E2 : ℚ},
      runScriptFrom fs stof I E lines = .ok (I2, E2) →
      ∃ fr : List ℝ, specShieldFractions fs stof E lines = some (fr, E2) ∧
        I2 = I * fr.prod := by
  intro lines
  induction lines with
  | nil =>
    intro I E I2 E2 h
    rw [runScriptFrom] at h
    injection h with h
    simp only [Prod.mk.injEq] at h
    obtain ⟨rfl, rfl⟩ := h
    exact ⟨[], by rw [specShieldFractions], by simp⟩
  | cons line rest ih =>
    intro I E I2 E2 h
    cases hsp : findSpace line with
    | none =>
      simp only [runScriptFrom, procLine, hsp] at h
      exact absurd h (by simp)
    | some n =>
      cases hg : stepGamma stof E (line.take n) (line.drop (n + 1)) with
      | error e =>
        simp only [runScriptFrom, procLine, hsp, hg] at h
        exact absurd h (by simp)
      | ok E1 =>
        by_cases hsh : line.take n = shieldLabel
        · cases htr : Transmit fs stof (commaSplit (line.drop (n + 1))).1
              (commaSplit (line.drop (n + 1))).2 E1 with
          | error e =>
            simp only [runScriptFrom, procLine, hsp, hg, if_pos hsh, htr] at h
            exact absurd h (by simp)
          | ok T =>
            simp only [runScriptFrom, procLine, hsp, hg, if_pos hsh, htr] at h
            obtain ⟨fr, hfr, hI⟩ := ih h
            refine ⟨T :: fr, ?_, ?_⟩
            · simp only [specShieldFractions, hsp, hg, if_pos hsh, htr, hfr]
            · rw [hI, List.prod_cons]
              ring
        · simp only [runScriptFrom, procLine, hsp, hg, hsh, ite_false, if_false] at h
          obtain ⟨fr, hfr, hI⟩ := ih h
          refine ⟨fr, ?_, hI⟩
          simp only [specShieldFractions, hsp, hg, hsh, ite_false, if_false]
          exact hfr

/-- C5: after a successful run of any command script, the intensity equals
the initial intensity 1.0 times the product of the per-layer transmitted
fractions; a script with no shielding layer ends with the intensity still
1.0; and processing the same `Shield` line twice multiplies the intensity
by its fraction `T` twice — layers compose multiplicatively. -/
theorem c5_intensity_product (fs : FileSys) (stof : Stof) :
    (∀ (lines : List (List Char)) (I2 : ℝ) (E2 : ℚ),
        runScript fs stof lines = .ok (I2, E2) →
        ∃ fr : List ℝ, specShieldFractions fs stof 0 lines = some (fr, E2) ∧
          I2 = 1 * fr.prod) ∧
    (∀ (lines : List (List Char)) (I2 : ℝ) (E2 : ℚ),
        runScript fs stof lines = .ok (I2, E2) →
        (∀ line ∈ lines, ∀ n, findSpace line = some n →
          line.take n ≠ shieldLabel) →
        I2 = 1) ∧
    (∀ (line : List Char) (n : ℕ) (I : ℝ) (E : ℚ) (T : ℝ),
        findSpace line = some n → line.take n = shieldLabel →
        Transmit fs stof (commaSplit (line.drop (n + 1))).1
          (commaSplit (line.drop (n + 1))).2 E = .ok T →
        runScriptFrom fs stof I E [line, line] = .ok (I * T * T, E)) := by
  refine ⟨?_, ?_, ?_⟩
  · intro lines I2 E2 h
    exact runScriptFrom_spec_fractions h
  · intro lines I2 E2 h hns
    exact runScriptFrom_no_shield h hns
  · intro line n I E T hsp hsh htr
    have hg : line.take n ≠ gammaLabel := by
      rw [hsh]
      decide
    have hone : ∀ J : ℝ, procLine fs stof J E line = .ok (J * T, E) := by
      intro J
      simp only [procLine, hsp, stepGamma, hg, ite_false, if_false, if_pos hsh, htr]
    simp only [runScriptFrom, hone I, hone (I * T)]

/-- C5 witness: a gamma-only script keeps the intensity at 1.0 (and its
fraction list multiplies to it), and the fixture `Shield` line applied
twice squares its transmitted fraction. -/
theorem c5_intensity_product_witness :
    runScript fsW stofW ["Gamma(keV): 2000".toList] = .ok (1, 2000) ∧
    (∃ fr : List ℝ,
      specShieldFractions fsW stofW 0 ["Gamma(keV): 2000".toList] = some (fr, 2000) ∧
      (1 : ℝ) = 1 * fr.prod) ∧
    runScriptFrom fsW stofW 1 2000
        ["Shield(type,cm): X,4".toList, "Shield(type,cm): X,4".toList] =
      .ok (1 * transmitFrac 9 11 4 * transmitFrac 9 11 4, 2000) := by
  have hrun : runScript fsW stofW ["Gamma(keV): 2000".toList] = .ok (1, 2000) := by
    with_unfolding_all rfl
  refine ⟨hrun, (c5_intensity_product fsW stofW).1 _ 1 2000 hrun, ?_⟩
  exact (c5_intensity_product fsW stofW).2.2 "Shield(type,cm): X,4".toList 16 1 2000
    (transmitFrac 9 11 4) (by with_unfolding_all rfl) (by decide)
    (by with_unfolding_all rfl)

/-- A prefix of lines whose labels match no recognized command leaves the
run where it started. -/
theorem runScriptFrom_skipAll {fs : FileSys} {stof : Stof} :
    ∀ {pre : List (List Char)} {I : ℝ} {E : ℚ} (ls : List (List Char)),
      (∀ l ∈ pre, ∃ m, findSpace l = some m ∧
        l.take m ≠ gammaLabel ∧ l.take m ≠ shieldLabel) →
      runScriptFrom fs stof I E (pre ++ ls) = runScriptFrom fs stof I E ls := by
  intro pre
  induction pre with
  | nil => intro I E ls _; rw [List.nil_append]
  | cons l rest ih =>
    intro I E ls hpre
    obtain ⟨m, hm, hg, hsh⟩ := hpre l (List.mem_cons_self l rest)
    have hp := procLine_skip fs stof I E l m hm hg hsh
    rw [List.cons_append]
    simp only [runScriptFrom, hp]
    exact ih ls (fun x hx => hpre x (List.mem_cons_of_mem _ hx))

/-- C10: the beam energy starts at 0.0 keV, so in a script where a
`Shield(type,cm):` line precedes every `Gamma(keV):` line, that first layer
is computed at energy `0` — `Transmit` is called with `E = 0`, and the
nearest-energy lookup runs with query `0/1000 = 0` MeV, which lies below
every positive tabulated energy (driving the `lb` read out of bounds). -/
theorem c10_initial_energy (fs : FileSys) (stof : Stof)
    (pre rest : List (List Char)) (sl : List Char) (n : ℕ)
    (hpre : ∀ l ∈ pre, ∃ m, findSpace l = some m ∧
      l.take m ≠ gammaLabel ∧ l.take m ≠ shieldLabel)
    (hn : findSpace sl = some n) (hty : sl.take n = shieldLabel) :
    runScriptFrom fs stof 1 0 pre = .ok (1, 0) ∧
    runScript fs stof (pre ++ sl :: rest) = runScriptFrom fs stof 1 0 (sl :: rest) ∧
    procLine fs stof 1 0 sl =
      (Transmit fs stof (commaSplit (sl.drop (n + 1))).1
        (commaSplit (sl.drop (n + 1))).2 0).map (fun T => (1 * T, 0)) ∧
    (∀ Es : List ℚ, (∀ x ∈ Es, 0 < x) →
      lowerBoundIdx Es ((0 : ℚ) / 1000) = 0 ∧ Closest Es ((0 : ℚ) / 1000) = none) := by
  refine ⟨?_, ?_, ?_, ?_⟩
  · have h := @runScriptFrom_skipAll fs stof pre 1 0 [] hpre
    rw [List.append_nil] at h
    rw [h, runScriptFrom]
  · rw [runScript]
    exact runScriptFrom_skipAll _ hpre
  · have hg : sl.take n ≠ gammaLabel := by
      rw [hty]
      decide
    simp only [procLine, hn, stepGamma, hg, ite_false, if_false, if_pos hty]
    cases htr : Transmit fs stof (commaSplit (sl.drop (n + 1))).1
        (commaSplit (sl.drop (n + 1))).2 0 <;> simp [Except.map]
  · intro Es hpos
    have hz : (0 : ℚ) / 1000 = 0 := by norm_num
    rw [hz]
    have hL : lowerBoundIdx Es (0 : ℚ) = 0 := by
      cases Es with
      | nil => rfl
      | cons a t =>
        have ha : ¬ a < (0 : ℚ) :=
          not_lt.mpr (le_of_lt (hpos a (List.mem_cons_self a t)))
        rw [lowerBoundIdx_cons, if_neg ha]
    exact ⟨hL, closest_eq_none_left hL⟩

/-- C10 witness: a script whose `Shield` line comes before any `Gamma` line
runs that layer from the initial state `(1, 0)`, and the query 0 MeV
under-runs the positive fixture table `[1, 3]`. -/
theorem c10_initial_energy_witness :
    runScriptFrom fsW stofW 1 0 ["Note: hi".toList] = .ok (1, 0) ∧
    runScript fsW stofW ("Note: hi".toList :: "Shield(type,cm): X,4".toList :: []) =
      runScriptFrom fsW stofW 1 0 ["Shield(type,cm): X,4".toList] ∧
    lowerBoundIdx [1, 3] ((0 : ℚ) / 1000) = 0 ∧
    Closest [1, 3] ((0 : ℚ) / 1000) = none := by
  have h := c10_initial_energy fsW stofW ["Note: hi".toList] []
    "Shield(type,cm): X,4".toList 16
    (by
      intro l hl
      rw [List.mem_singleton] at hl
      subst hl
      exact ⟨5, by with_unfolding_all rfl, by decide, by decide⟩)
    (by with_unfolding_all rfl) (by decide)
  exact ⟨h.1, h.2.1, (h.2.2.2 [1, 3] (by decide)).1, (h.2.2.2 [1, 3] (by decide)).2⟩

/-- C6 (code bug): contrary to the claim, a run whose command script cannot
be opened terminates SUCCESSFULLY: `main` has no `else` for the macro
`is_open` check (CalcAtten.cc line 44), so the program falls through to
`return 0` with the initial state.  An unopenable material data file, by
contrast, is a fatal error as claimed, and the usage/fatal outcomes do exit
non-zero. -/
theorem c6_unreadable_script_exits_zero :
    mainRun (fun _ => none) stofW ["macro.txt".toList] = .success 1 0 ∧
    exitOK (mainRun (fun _ => none) stofW ["macro.txt".toList]) = true ∧
    Transmit (fun _ => none) stofW "X".toList "4".toList 2000 =
      .error .fileNotOpen ∧
    exitOK .usageError = false ∧ exitOK (.fatal .fileNotOpen) = false := by
  refine ⟨?_, ?_, ?_, rfl, rfl⟩ <;> with_unfolding_all rfl

/-- C4 witness: on the table `[1, 3]`, the interior query 2 keeps every
access in bounds; the query 1 (equal to the smallest entry) makes the `lb`
index under-run; the query 3 (equal to the largest entry) makes the `ub`
index over-run. -/
theorem c4_closest_boundary_witness :
    ([1, 3] : List ℚ).Sorted (· < ·) ∧
    (Closest [1, 3] (2 : ℚ)).isSome = true ∧
    lowerBoundIdx [1, 3] (1 : ℚ) = 0 ∧
    readAt [1, 3] ((lowerBoundIdx [1, 3] (1 : ℚ) : ℤ) - 1) = none ∧
    upperBoundIdx [1, 3] (3 : ℚ) = ([1, 3] : List ℚ).length ∧
    readAt [1, 3] (upperBoundIdx [1, 3] (3 : ℚ) : ℤ) = none := by
  have h2 := c4_closest_boundary [1, 3] 2 (by decide) (by decide)
  have h1 := c4_closest_boundary [1, 3] 1 (by decide) (by decide)
  have h3 := c4_closest_boundary [1, 3] 3 (by decide) (by decide)
  have hu := h1.1 (Or.inr rfl)
  have hv := h3.2.1 (Or.inr rfl)
  exact ⟨by decide, h2.2.2.mpr ⟨1, 3, rfl, rfl, by decide, by decide⟩,
    hu.1, hu.2, hv.1, hv.2⟩

end AttenCalc
